import Mathlib

/-!
Verification of the dataset-normalization pipeline of the
airline-passenger-satisfaction analysis repository (`src/cleaning.py`).

A pandas `DataFrame` is embedded as a `Table`: an ordered list of column
names together with an ordered list of rows, each row an ordered list of
scalar cell values.  A cell is a number (modelled exactly as a rational),
a string, or the missing marker (pandas `NaN`).

The two cleaning operations are translated directly from the source:

* `drop_unwanted_columns` — `df.drop(columns=[c for c in columns_to_drop
  if c in df.columns])`; a non-mutating call returning a fresh frame.
* `impute_mean_inplace` — checks membership, computes the column mean
  skipping missing values (`Series.mean`), fills missing cells with it
  (`fillna`), and returns the mean.  Because the Python function mutates
  its argument and `raise`s before any mutation when the column is
  absent, it is embedded in state-passing style: the result is the pair
  (state of the DataFrame object after the call, return value or error).
-/

namespace Cleaning

/-- A scalar cell of the table: an exact numeric value, a string, or the
missing marker (`NaN` in the pandas source). -/
inductive Value where
  | num (q : ℚ)
  | str (s : String)
  | missing
deriving DecidableEq, Repr

/-- `true` exactly on string cells. -/
def Value.isStr : Value → Bool
  | .str _ => true
  | _ => false

/-- `true` exactly on numeric cells. -/
def Value.isNum : Value → Bool
  | .num _ => true
  | _ => false

/-- `true` exactly on cells that are not the missing marker. -/
def isPresent : Value → Bool
  | .missing => false
  | _ => true

/-- The in-memory table: ordered column names and ordered rows of cells.
Each row lists its cells in column order. -/
structure Table where
  cols : List String
  rows : List (List Value)
deriving DecidableEq, Repr

/-- Well-formedness: every row has exactly one cell per column. -/
def Table.WF (t : Table) : Prop := ∀ r ∈ t.rows, r.length = t.cols.length

instance (t : Table) : Decidable t.WF := by
  unfold Table.WF; infer_instance

/-- The cells of one row that survive dropping the columns named in
`present`: walking the column names and the row together, a cell is kept
iff its column name is not in `present`. -/
def keptRow (present : List String) : List String → List Value → List Value
  | c :: cs, v :: vs =>
      if c ∈ present then keptRow present cs vs else v :: keptRow present cs vs
  | _, _ => []

/-- Translation of `drop_unwanted_columns(df, columns_to_drop)`:
`columns_present = [col for col in columns_to_drop if col in df.columns]`
followed by `df.drop(columns=columns_present)`, which removes exactly the
listed columns and returns a fresh frame. -/
def drop_unwanted_columns (df : Table) (columns_to_drop : List String) : Table :=
  let columns_present := columns_to_drop.filter (fun col => decide (col ∈ df.cols))
  { cols := df.cols.filter (fun c => decide (c ∉ columns_present)),
    rows := df.rows.map (keptRow columns_present df.cols) }

/-- The call semantics of `drop_unwanted_columns`: pandas `DataFrame.drop`
is non-mutating (default `inplace=False`), so the caller's object is the
first component, unchanged, and the fresh frame is the returned value. -/
def drop_unwanted_columns_call (df : Table) (columns_to_drop : List String) :
    Table × Table :=
  (df, drop_unwanted_columns df columns_to_drop)

/-- The cell of `row` under the column named `c` (first occurrence), as in
`df[column]` read row-wise; absent positions read as missing. -/
def getVal (c : String) : List String → List Value → Value
  | c0 :: cs, v :: vs => if c0 = c then v else getVal c cs vs
  | _, _ => Value.missing

/-- Rewrite the cell of `row` under the column named `c` (first
occurrence) through `f`, as in the column assignment `df[column] = ...`
applied row-wise. -/
def setValAt (c : String) (f : Value → Value) : List String → List Value → List Value
  | c0 :: cs, v :: vs =>
      if c0 = c then f v :: vs else v :: setValAt c f cs vs
  | _, vs => vs

/-- The column named `c` of the table, top to bottom. -/
def getColumn (t : Table) (c : String) : List Value :=
  t.rows.map (fun r => getVal c t.cols r)

/-- The numeric entries of a list of cells, in order; string cells and
missing markers contribute nothing (as in `Series.mean`, which skips
`NaN`). -/
def nonMissingNums (vals : List Value) : List ℚ :=
  vals.filterMap (fun v => match v with | .num q => some q | _ => none)

/-- `Series.mean`: the arithmetic mean of the non-missing numeric entries,
or the missing marker (`NaN`) when there are none. -/
def colMean (vals : List Value) : Value :=
  let nums := nonMissingNums vals
  if nums = [] then Value.missing
  else Value.num (nums.sum / (nums.length : ℚ))

/-- `Series.fillna m` on one cell: a missing cell becomes `m`, any other
cell is kept (note `fillna NaN` leaves missing cells missing). -/
def fillMissing (m : Value) (v : Value) : Value :=
  if v = Value.missing then m else v

/-- Translation of `impute_mean_inplace(df, column)` in state-passing
style.  If the column is absent a `KeyError` is raised before any
mutation, so the state is the unchanged `df`.  Otherwise
`mean_val = df[column].mean()` is computed from the column as it stands,
the column is overwritten by `df[column].fillna(mean_val)`, and
`mean_val` is returned. -/
def impute_mean_inplace (df : Table) (column : String) :
    Table × Except String Value :=
  if column ∈ df.cols then
    let mean_val := colMean (getColumn df column)
    ({ cols := df.cols,
       rows := df.rows.map (setValAt column (fillMissing mean_val) df.cols) },
     Except.ok mean_val)
  else
    (df, Except.error ("Column " ++ column ++ " not found in DataFrame."))

/-! ### CSV serialization

`load_raw_dataset` and `save_processed_dataset` in `src/cleaning.py`
delegate the file format entirely to pandas (`pd.read_csv` /
`DataFrame.to_csv(path, index=False)`), which is library code not in
`src/`.  The serialization below is therefore modelled from the spec's
external-interface section: comma-separated text, a header line naming
the columns, one line per row, empty fields for missing values, no
synthetic row-index column. -/

/-- Split a character list at every occurrence of `sep`; always returns
at least one piece. -/
def splitOnChar (sep : Char) : List Char → List (List Char)
  | [] => [[]]
  | c :: rest =>
      if c = sep then [] :: splitOnChar sep rest
      else
        match splitOnChar sep rest with
        | [] => [[c]]
        | g :: gs => (c :: g) :: gs

/-- Join character lists with `sep` between consecutive pieces. -/
def joinWith (sep : Char) : List (List Char) → List Char
  | [] => []
  | [p] => p
  | p :: q :: ps => p ++ sep :: joinWith sep (q :: ps)

/-- The character of a decimal digit. -/
def digitChar10 (d : Nat) : Char := Char.ofNat (48 + d)

/-- Decimal rendering of a natural number, most significant digit
first. -/
def natChars (n : Nat) : List Char :=
  if n = 0 then ['0'] else (Nat.digits 10 n).reverse.map digitChar10

/-- Decode one decimal digit character. -/
def decodeDigit (c : Char) : Option Nat :=
  if 48 ≤ c.toNat ∧ c.toNat ≤ 57 then some (c.toNat - 48) else none

/-- Decode a list of decimal digit characters, failing on any
non-digit. -/
def decodeDigits : List Char → Option (List Nat)
  | [] => some []
  | c :: cs =>
      match decodeDigit c, decodeDigits cs with
      | some d, some ds => some (d :: ds)
      | _, _ => none

/-- Parse a nonempty all-digit character list as a natural number. -/
def parseNatChars (cs : List Char) : Option Nat :=
  if cs = [] then none
  else (decodeDigits cs).map (fun ds => Nat.ofDigits 10 ds.reverse)

/-- Decimal rendering of the value `m / 10 ^ k` (for natural `m`): the
integer part, then, when `k > 0`, a dot and exactly `k` fraction
digits. -/
def renderUnsignedScaled (m k : Nat) : List Char :=
  if k = 0 then natChars m
  else natChars (m / 10 ^ k) ++ '.' ::
    (List.replicate (k - (natChars (m % 10 ^ k)).length) '0'
      ++ natChars (m % 10 ^ k))

/-- Interpret the dot-separated pieces of an unsigned decimal: either a
single run of digits, or an integer part and a fraction part. -/
def parsePieces : List (List Char) → Option ℚ
  | [ip] => (parseNatChars ip).map (fun n => (n : ℚ))
  | [ip, fp] =>
      match parseNatChars ip, parseNatChars fp with
      | some i, some f => some ((i : ℚ) + (f : ℚ) / (10 : ℚ) ^ fp.length)
      | _, _ => none
  | _ => none

/-- Parse an unsigned decimal: digits, optionally a dot and fraction
digits. -/
def parseUnsigned (cs : List Char) : Option ℚ :=
  parsePieces (splitOnChar '.' cs)

/-- Smallest exponent `k ≤ d` with `d ∣ 10 ^ k`, when one exists (i.e.
when `1 / d` has a finite decimal expansion). -/
def decExp (d : Nat) : Option Nat :=
  (List.range (d + 1)).find? (fun k => decide (10 ^ k % d = 0))

/-- Decimal rendering of a rational: sign, then the scaled-integer
decimal; a (non-CSV-safe) fraction fallback when the denominator has no
finite decimal expansion. -/
def renderNum (q : ℚ) : List Char :=
  match decExp q.den with
  | some k =>
      if q < 0 then
        '-' :: renderUnsignedScaled (q.num.natAbs * (10 ^ k / q.den)) k
      else renderUnsignedScaled (q.num.natAbs * (10 ^ k / q.den)) k
  | none => natChars q.num.natAbs ++ '/' :: natChars q.den

/-- Parse an optionally negated decimal number. -/
def parseNum (cs : List Char) : Option ℚ :=
  match cs with
  | [] => none
  | c :: rest =>
      if c = '-' then (parseUnsigned rest).map (fun a => -a)
      else parseUnsigned (c :: rest)

/-- Modelled from the spec: the field serialization performed by pandas
`DataFrame.to_csv` (library code, not in `src/`): a missing cell becomes
an empty field, a number its decimal rendering, a string its
characters. -/
def encodeField : Value → List Char
  | .missing => []
  | .num q => renderNum q
  | .str s => s.data

/-- `true` when a raw field is compatible with a numeric column: empty
(missing) or numeric-looking. -/
def fieldIsNumericOrEmpty (cs : List Char) : Bool :=
  cs.isEmpty || (parseNum cs).isSome

/-- Modelled from the spec: the field typing performed by pandas
`read_csv` (library code, not in `src/`), given the column's inferred
kind: an empty field is always the missing marker; in a numeric column a
field parses as a number; otherwise it stays a string. -/
def typeField (numeric : Bool) (cs : List Char) : Value :=
  if cs = [] then Value.missing
  else if numeric then
    match parseNum cs with
    | some q => Value.num q
    | none => Value.str (String.mk cs)
  else Value.str (String.mk cs)

/-- Type the raw fields of one row, walking the column index along:
the field at position `j` is typed per its column's inferred kind. -/
def typeRow (numericAt : Nat → Bool) : Nat → List (List Char) → List Value
  | _, [] => []
  | j, cs :: rest => typeField (numericAt j) cs :: typeRow numericAt (j + 1) rest

/-- Modelled from the spec: `save_processed_dataset(df, path)` delegates
to pandas `df.to_csv(path, index=False)` (library code, not in `src/`).
The produced file contents: a header line of comma-joined column names,
then one comma-joined line per row in order, with no synthetic row-index
column. -/
def save_processed_dataset (df : Table) : String :=
  String.mk (joinWith '\n'
    (joinWith ',' (df.cols.map String.data) ::
      df.rows.map (fun r => joinWith ',' (r.map encodeField))))

/-- Modelled from the spec: `load_raw_dataset(path)` delegates to pandas
`pd.read_csv(path)` (library code, not in `src/`). The first line of the
file contents names the columns; each later line is one row, split on
commas. Typing is per-column: a column is numeric exactly when every one
of its raw fields (across all data rows) is empty or numeric-looking;
fields of numeric columns parse as numbers, other nonempty fields are
left as strings, and empty fields are the missing marker. -/
def load_raw_dataset (contents : String) : Table :=
  let pieces := splitOnChar '\n' contents.data
  let rawRows := pieces.tail.map (fun line => splitOnChar ',' line)
  Table.mk ((splitOnChar ',' pieces.headI).map String.mk)
    (rawRows.map (typeRow (fun j =>
      rawRows.all (fun fr => fieldIsNumericOrEmpty (fr.getD j []))) 0))

/-- A cell survives one save/load cycle: the missing marker always; a
number when its denominator has a finite decimal expansion; a string
when it is nonempty, free of separators, and not numeric-looking. -/
def fieldSafe : Value → Prop
  | .missing => True
  | .num q => (decExp q.den).isSome = true
  | .str s =>
      s.data ≠ [] ∧ ',' ∉ s.data ∧ '\n' ∉ s.data ∧ parseNum s.data = none

instance fieldSafe.dec : (v : Value) → Decidable (fieldSafe v)
  | .missing => .isTrue trivial
  | .num q => by unfold fieldSafe; infer_instance
  | .str s => by unfold fieldSafe; infer_instance

/-- A table survives one save/load cycle: nonempty header,
separator-free column names, full-length rows of `fieldSafe` cells, and —
because the loader types whole columns, not single fields — homogeneous
columns: no column mixes numeric and string cells. -/
def Table.csvSafe (t : Table) : Prop :=
  t.cols ≠ [] ∧ (∀ c ∈ t.cols, ',' ∉ c.data ∧ '\n' ∉ c.data) ∧
    (∀ r ∈ t.rows, r.length = t.cols.length ∧ ∀ v ∈ r, fieldSafe v) ∧
    ∀ j < t.cols.length,
      (∀ r ∈ t.rows, (r.getD j Value.missing).isStr = false) ∨
      (∀ r ∈ t.rows, (r.getD j Value.missing).isNum = false)

instance (t : Table) : Decidable t.csvSafe := by
  unfold Table.csvSafe
  infer_instance

/-! ### Helper lemmas about rows and columns -/

theorem length_keptRow_le (present : List String) :
    ∀ (cols : List String) (r : List Value),
      (keptRow present cols r).length ≤
        (cols.filter (fun c => decide (c ∉ present))).length
  | [], r => by simp [keptRow]
  | c :: cs, [] => by simp [keptRow]
  | c :: cs, v :: vs => by
      by_cases hc : c ∈ present
      · simpa [keptRow, hc] using
          le_trans (length_keptRow_le present cs vs) (by simp)
      · simpa [keptRow, hc] using length_keptRow_le present cs vs

theorem keptRow_nil (cols : List String) (r : List Value)
    (h : r.length ≤ cols.length) : keptRow [] cols r = r := by
  induction cols generalizing r with
  | nil =>
      cases r with
      | nil => rfl
      | cons v vs => simp at h
  | cons c cs ih =>
      cases r with
      | nil => rfl
      | cons v vs =>
          simp only [List.length_cons, Nat.succ_le_succ_iff] at h
          simp [keptRow, ih vs h]

theorem getVal_setValAt_ne (c c' : String) (f : Value → Value) (hne : c' ≠ c) :
    ∀ (cols : List String) (r : List Value),
      getVal c' cols (setValAt c f cols r) = getVal c' cols r
  | [], r => rfl
  | c0 :: cs, [] => rfl
  | c0 :: cs, v :: vs => by
      by_cases h0 : c0 = c
      · subst h0
        simp [setValAt, getVal, Ne.symm hne]
      · by_cases h1 : c0 = c'
        · subst h1
          simp [setValAt, getVal, h0]
        · simp [setValAt, getVal, h0, h1, getVal_setValAt_ne c c' f hne cs vs]

theorem getVal_setValAt_eq (c : String) (f : Value → Value) :
    ∀ (cols : List String) (r : List Value), c ∈ cols → cols.length ≤ r.length →
      getVal c cols (setValAt c f cols r) = f (getVal c cols r)
  | [], r => by simp
  | c0 :: cs, [] => by simp
  | c0 :: cs, v :: vs => by
      intro hc hlen
      by_cases h0 : c0 = c
      · simp [setValAt, getVal, h0]
      · have hc' : c ∈ cs := by
          rcases List.mem_cons.mp hc with h | h
          · exact absurd h.symm h0
          · exact h
        have hlen' : cs.length ≤ vs.length := by
          simpa [Nat.succ_le_succ_iff] using hlen
        simp [setValAt, getVal, h0, getVal_setValAt_eq c f cs vs hc' hlen']

theorem setValAt_of_id (c : String) (f : Value → Value) (hf : ∀ v, f v = v) :
    ∀ (cols : List String) (r : List Value), setValAt c f cols r = r
  | [], r => rfl
  | c0 :: cs, [] => rfl
  | c0:: cs, v :: vs => by
      by_cases h0 : c0 = c
      · simp [setValAt, h0, hf]
      · simp [setValAt, h0, setValAt_of_id c f hf cs vs]

theorem getColumn_impute_self (t : Table) (c : String) (hWF : t.WF)
    (hc : c ∈ t.cols) :
    getColumn (impute_mean_inplace t c).1 c
      = (getColumn t c).map (fillMissing (colMean (getColumn t c))) := by
  simp only [impute_mean_inplace, if_pos hc, getColumn, List.map_map]
  apply List.map_congr_left
  intro r hr
  exact getVal_setValAt_eq c _ t.cols r hc (le_of_eq (hWF r hr).symm)

theorem getColumn_impute_other (t : Table) (c c' : String) (hne : c' ≠ c) :
    getColumn (impute_mean_inplace t c).1 c' = getColumn t c' := by
  by_cases hc : c ∈ t.cols
  · simp only [impute_mean_inplace, if_pos hc, getColumn, List.map_map]
    apply List.map_congr_left
    intro r _
    exact getVal_setValAt_ne c c' _ hne t.cols r
  · simp [impute_mean_inplace, hc]

theorem filter_present_eq_map_num (l : List Value)
    (h : ∀ v ∈ l, v.isStr = false) :
    l.filter isPresent = (nonMissingNums l).map Value.num := by
  induction l with
  | nil => rfl
  | cons v vs ih =>
      have hv := h v (List.mem_cons_self v vs)
      have hvs : ∀ w ∈ vs, w.isStr = false := fun w hw =>
        h w (List.mem_cons_of_mem v hw)
      cases v with
      | num q => simp [nonMissingNums, isPresent, ih hvs]
      | str s => simp [Value.isStr] at hv
      | missing => simpa [nonMissingNums, isPresent] using ih hvs

theorem colMean_isNum (l : List Value) (hne : nonMissingNums l ≠ []) :
    colMean l = Value.num ((nonMissingNums l).sum
      / ((nonMissingNums l).length : ℚ)) := by
  simp [colMean, hne]

theorem mem_drop_unwanted_columns_cols (t : Table) (S : List String)
    (c : String) :
    c ∈ (drop_unwanted_columns t S).cols ↔ c ∈ t.cols ∧ c ∉ S := by
  simp only [drop_unwanted_columns, List.mem_filter, decide_eq_true_eq]
  tauto

theorem drop_unwanted_columns_of_disjoint (t : Table) (S : List String)
    (hd : S.filter (fun col => decide (col ∈ t.cols)) = [])
    (hlen : ∀ r ∈ t.rows, r.length ≤ t.cols.length) :
    drop_unwanted_columns t S = t := by
  obtain ⟨cols, rows⟩ := t
  simp only [drop_unwanted_columns, hd]
  rw [Table.mk.injEq]
  constructor
  · exact List.filter_eq_self.mpr (fun a _ => by simp)
  · rw [List.map_congr_left (fun r hr => keptRow_nil cols r (hlen r hr))]
    simp

/-! ### Claim theorems -/

/-- C6: the column list of `drop_unwanted_columns(T, S)` is the column
list of `T` with exactly the members of `S` removed — names in `S` absent
from `T` are silently ignored (the operation is total, no error value
exists), and the surviving columns keep their relative order (the result
is a filtering of `T`'s ordered column list). -/
theorem drop_columns_removes_exactly_named (t : Table) (S : List String) :
    (drop_unwanted_columns t S).cols
      = t.cols.filter (fun c => decide (c ∉ S)) := by
  simp only [drop_unwanted_columns]
  apply List.filter_congr
  intro c hc
  rw [decide_eq_decide]
  simp [List.mem_filter, hc]

/-- C8: dropping the same column set twice yields the same table as
dropping it once. -/
theorem drop_columns_idempotent (t : Table) (S : List String) :
    drop_unwanted_columns (drop_unwanted_columns t S) S
      = drop_unwanted_columns t S := by
  apply drop_unwanted_columns_of_disjoint
  · rw [List.filter_eq_nil_iff]
    intro c hcS
    simp only [decide_eq_true_eq]
    intro hmem
    exact ((mem_drop_unwanted_columns_cols t S c).mp hmem).2 hcS
  · intro r hr
    simp only [drop_unwanted_columns, List.mem_map] at hr
    obtain ⟨r0, _, hr0⟩ := hr
    subst hr0
    simpa only [drop_unwanted_columns] using
      length_keptRow_le (S.filter (fun col => decide (col ∈ t.cols))) t.cols r0

/-- C3: neither pipeline stage adds or removes a row — dropping columns
keeps the row count, and imputing an existing column keeps the row count
of the resulting table. -/
theorem pipeline_stages_preserve_row_count (t : Table) (S : List String)
    (c : String) (hc : c ∈ t.cols) :
    (drop_unwanted_columns t S).rows.length = t.rows.length ∧
    (impute_mean_inplace t c).1.rows.length = t.rows.length := by
  constructor
  · simp [drop_unwanted_columns]
  · simp [impute_mean_inplace, hc]

/-- Witness for C3 at a concrete 2-column, 3-row table. -/
theorem pipeline_stages_preserve_row_count_witness :
    "a" ∈ (Table.mk ["a", "b"]
      [[Value.num 1, Value.str "x"], [Value.missing, Value.str "y"],
       [Value.num 3, Value.missing]]).cols ∧
    ((drop_unwanted_columns (Table.mk ["a", "b"]
        [[Value.num 1, Value.str "x"], [Value.missing, Value.str "y"],
         [Value.num 3, Value.missing]]) ["b", "zz"]).rows.length
      = (Table.mk ["a", "b"]
        [[Value.num 1, Value.str "x"], [Value.missing, Value.str "y"],
         [Value.num 3, Value.missing]]).rows.length ∧
     (impute_mean_inplace (Table.mk ["a", "b"]
        [[Value.num 1, Value.str "x"], [Value.missing, Value.str "y"],
         [Value.num 3, Value.missing]]) "a").1.rows.length
      = (Table.mk ["a", "b"]
        [[Value.num 1, Value.str "x"], [Value.missing, Value.str "y"],
         [Value.num 3, Value.missing]]).rows.length) :=
  ⟨by decide, pipeline_stages_preserve_row_count _ ["b", "zz"] "a" (by decide)⟩

/-- C5: imputing a column that is not in the table produces the
`KeyError` and the table state is completely unchanged — the error is
raised before any mutation. -/
theorem impute_absent_column_errors (t : Table) (c : String)
    (hc : c ∉ t.cols) :
    impute_mean_inplace t c
      = (t, Except.error ("Column " ++ c ++ " not found in DataFrame.")) := by
  simp [impute_mean_inplace, hc]

/-- Witness for C5: a concrete table with a missing target column. -/
theorem impute_absent_column_errors_witness :
    impute_mean_inplace (Table.mk ["a"] [[Value.num 1]]) "b"
      = (Table.mk ["a"] [[Value.num 1]],
         Except.error ("Column " ++ "b" ++ " not found in DataFrame.")) :=
  impute_absent_column_errors _ "b" (by decide)

/-- C4: when every cell of the target column is the missing marker, the
code follows the all-missing passthrough policy: the mean returned is the
missing marker (`NaN`) and the table is left exactly as it was — every
cell of the column is still missing and in particular nothing is filled
with zero. -/
theorem impute_all_missing_passthrough (t : Table) (c : String)
    (hc : c ∈ t.cols) (hall : ∀ v ∈ getColumn t c, v = Value.missing) :
    impute_mean_inplace t c = (t, Except.ok Value.missing) := by
  have hnums : nonMissingNums (getColumn t c) = [] := by
    rw [nonMissingNums, List.filterMap_eq_nil_iff]
    intro v hv
    rw [hall v hv]
  have hmean : colMean (getColumn t c) = Value.missing := by
    simp [colMean, hnums]
  have hfill : ∀ v, fillMissing Value.missing v = v := by
    intro v
    by_cases h : v = Value.missing <;> simp [fillMissing, h]
  obtain ⟨cols, rows⟩ := t
  simp only [impute_mean_inplace, if_pos hc, hmean]
  rw [Prod.mk.injEq, Table.mk.injEq]
  refine ⟨⟨rfl, ?_⟩, rfl⟩
  rw [List.map_congr_left (fun r _ => setValAt_of_id c _ hfill cols r)]
  simp

/-- Witness for C4: a one-column table whose column is entirely missing. -/
theorem impute_all_missing_passthrough_witness :
    "a" ∈ (Table.mk ["a"] [[Value.missing], [Value.missing]]).cols ∧
    impute_mean_inplace (Table.mk ["a"] [[Value.missing], [Value.missing]]) "a"
      = (Table.mk ["a"] [[Value.missing], [Value.missing]],
         Except.ok Value.missing) :=
  ⟨by decide,
    impute_all_missing_passthrough _ "a" (by decide) (by decide)⟩

/-- C10: calling `drop_unwanted_columns` leaves the caller's table object
unchanged (it still has all its columns) and hands back a fresh table,
while `impute_mean_inplace` returns only the mean value used and instead
updates the table state itself: its column `c` is the original column
with missing cells filled by the original mean.  The target column is
required to be string-free, matching the imputer's numeric-column
contract (`Series.mean` raises on columns containing strings). -/
theorem drop_is_fresh_impute_is_in_place (t : Table) (S : List String)
    (c : String) (hWF : t.WF) (hc : c ∈ t.cols)
    (hnum : ∀ v ∈ getColumn t c, v.isStr = false) :
    (drop_unwanted_columns_call t S).1 = t ∧
    (impute_mean_inplace t c).2 = Except.ok (colMean (getColumn t c)) ∧
    (impute_mean_inplace t c).1.cols = t.cols ∧
    getColumn (impute_mean_inplace t c).1 c
      = (getColumn t c).map (fillMissing (colMean (getColumn t c))) := by
  refine ⟨rfl, ?_, ?_, getColumn_impute_self t c hWF hc⟩
  · simp [impute_mean_inplace, hc]
  · simp [impute_mean_inplace, hc]

/-- Witness for C10 at a concrete table. -/
theorem drop_is_fresh_impute_is_in_place_witness :
    "b" ∈ (Table.mk ["a", "b"] [[Value.num 4, Value.missing],
      [Value.num 6, Value.num 1]]).cols ∧
    (drop_unwanted_columns_call (Table.mk ["a", "b"]
        [[Value.num 4, Value.missing], [Value.num 6, Value.num 1]]) ["a"]).1
      = Table.mk ["a", "b"] [[Value.num 4, Value.missing],
          [Value.num 6, Value.num 1]] ∧
    getColumn (impute_mean_inplace (Table.mk ["a", "b"]
        [[Value.num 4, Value.missing], [Value.num 6, Value.num 1]]) "b").1 "b"
      = (getColumn (Table.mk ["a", "b"] [[Value.num 4, Value.missing],
          [Value.num 6, Value.num 1]]) "b").map
          (fillMissing (colMean (getColumn (Table.mk ["a", "b"]
            [[Value.num 4, Value.missing], [Value.num 6, Value.num 1]]) "b"))) := by
  refine ⟨by decide, ?_, ?_⟩
  · exact (drop_is_fresh_impute_is_in_place _ ["a"] "b" (by decide) (by decide)
      (by decide)).1
  · exact (drop_is_fresh_impute_is_in_place _ ["a"] "b" (by decide) (by decide)
      (by decide)).2.2.2

/-- C1: on an existing numeric column with at least one present value, the
mean reported by `impute_mean_inplace` is the arithmetic mean (sum over
count) of the column's values as they stand in the input table — i.e.
before any cell is overwritten — and those are exactly the column's
non-missing cells; nothing restricts how many cells are missing. -/
theorem impute_reports_mean_of_original_present_values (t : Table)
    (c : String) (hc : c ∈ t.cols)
    (hnum : ∀ v ∈ getColumn t c, v.isStr = false)
    (hne : nonMissingNums (getColumn t c) ≠ []) :
    (impute_mean_inplace t c).2
      = Except.ok (Value.num ((nonMissingNums (getColumn t c)).sum
          / ((nonMissingNums (getColumn t c)).length : ℚ))) ∧
    (getColumn t c).filter isPresent
      = (nonMissingNums (getColumn t c)).map Value.num := by
  refine ⟨?_, filter_present_eq_map_num _ hnum⟩
  simp only [impute_mean_inplace, if_pos hc]
  rw [colMean_isNum _ hne]

/-- Witness for C1: the spec's scenario column `[5, missing, 15, missing,
25]`. -/
theorem impute_reports_mean_of_original_present_values_witness :
    "a" ∈ (Table.mk ["a"] [[Value.num 5], [Value.missing], [Value.num 15],
      [Value.missing], [Value.num 25]]).cols ∧
    nonMissingNums (getColumn (Table.mk ["a"] [[Value.num 5],
      [Value.missing], [Value.num 15], [Value.missing],
      [Value.num 25]]) "a") ≠ [] ∧
    ((impute_mean_inplace (Table.mk ["a"] [[Value.num 5], [Value.missing],
        [Value.num 15], [Value.missing], [Value.num 25]]) "a").2
      = Except.ok (Value.num ((nonMissingNums (getColumn (Table.mk ["a"]
          [[Value.num 5], [Value.missing], [Value.num 15], [Value.missing],
           [Value.num 25]]) "a")).sum
          / ((nonMissingNums (getColumn (Table.mk ["a"] [[Value.num 5],
              [Value.missing], [Value.num 15], [Value.missing],
              [Value.num 25]]) "a")).length : ℚ))) ∧
     (getColumn (Table.mk ["a"] [[Value.num 5], [Value.missing],
        [Value.num 15], [Value.missing], [Value.num 25]]) "a").filter isPresent
      = (nonMissingNums (getColumn (Table.mk ["a"] [[Value.num 5],
          [Value.missing], [Value.num 15], [Value.missing],
          [Value.num 25]]) "a")).map Value.num) :=
  ⟨by decide, by decide,
    impute_reports_mean_of_original_present_values _ "a" (by decide)
      (by decide) (by decide)⟩

/-- C2: on a well-formed table whose existing numeric target column has
at least one non-missing cell, the imputed column contains no missing
marker at all. -/
theorem imputed_column_contains_no_missing (t : Table) (c : String)
    (hWF : t.WF) (hc : c ∈ t.cols)
    (hnum : ∀ v ∈ getColumn t c, v.isStr = false)
    (hne : ∃ v ∈ getColumn t c, v ≠ Value.missing) :
    ∀ v ∈ getColumn (impute_mean_inplace t c).1 c, v ≠ Value.missing := by
  have hnums : nonMissingNums (getColumn t c) ≠ [] := by
    obtain ⟨v0, hv0, hv0ne⟩ := hne
    cases v0 with
    | num q =>
        exact List.ne_nil_of_mem (List.mem_filterMap.mpr ⟨Value.num q, hv0, rfl⟩)
    | str s => exact absurd (hnum _ hv0) (by simp [Value.isStr])
    | missing => exact absurd rfl hv0ne
  rw [getColumn_impute_self t c hWF hc]
  intro v hv
  obtain ⟨w, hw, hwv⟩ := List.mem_map.mp hv
  subst hwv
  by_cases hwm : w = Value.missing
  · subst hwm
    rw [fillMissing, if_pos rfl, colMean_isNum _ hnums]
    intro h
    exact Value.noConfusion h
  · simp [fillMissing, hwm]

/-- Witness for C2: the imputed scenario column has no missing cell
(stated as a boolean scan of the column). -/
theorem imputed_column_contains_no_missing_witness :
    (getColumn (impute_mean_inplace (Table.mk ["a"] [[Value.num 5],
      [Value.missing], [Value.num 15], [Value.missing],
      [Value.num 25]]) "a").1 "a").all
      (fun v => decide (v ≠ Value.missing)) = true := by
  rw [List.all_eq_true]
  intro v hv
  exact decide_eq_true
    (imputed_column_contains_no_missing (Table.mk ["a"] [[Value.num 5],
      [Value.missing], [Value.num 15], [Value.missing], [Value.num 25]]) "a"
      (by decide) (by decide) (by decide) (by decide) v hv)

/-- C7: imputation is frame-bounded — the column list is unchanged, every
column other than the target reads exactly as before, and within the
target column every cell that held a present value keeps that exact value
(cellwise, by `Forall₂` between the old and new column). -/
theorem impute_touches_only_missing_cells (t : Table) (c : String)
    (hWF : t.WF) (hc : c ∈ t.cols) :
    (impute_mean_inplace t c).1.cols = t.cols ∧
    (∀ c', c' ≠ c →
      getColumn (impute_mean_inplace t c).1 c' = getColumn t c') ∧
    List.Forall₂ (fun v v' => v ≠ Value.missing → v' = v)
      (getColumn t c) (getColumn (impute_mean_inplace t c).1 c) := by
  refine ⟨?_, fun c' h => getColumn_impute_other t c c' h, ?_⟩
  · simp [impute_mean_inplace, hc]
  · rw [getColumn_impute_self t c hWF hc, List.forall₂_map_right_iff,
      List.forall₂_same]
    intro v _ hvm
    simp [fillMissing, hvm]

/-! ### CSV lemmas -/

theorem splitOnChar_of_not_mem (sep : Char) (p : List Char) (hp : sep ∉ p) :
    splitOnChar sep p = [p] := by
  induction p with
  | nil => rfl
  | cons c cs ih =>
      have hc : ¬ c = sep := fun h => hp (h ▸ List.mem_cons_self c cs)
      have hcs : sep ∉ cs := fun h => hp (List.mem_cons_of_mem c h)
      simp only [splitOnChar, if_neg hc, ih hcs]

theorem splitOnChar_append (sep : Char) (p r : List Char) (hp : sep ∉ p) :
    splitOnChar sep (p ++ sep :: r) = p :: splitOnChar sep r := by
  induction p with
  | nil => simp [splitOnChar]
  | cons c cs ih =>
      have hc : ¬ c = sep := fun h => hp (h ▸ List.mem_cons_self c cs)
      have hcs : sep ∉ cs := fun h => hp (List.mem_cons_of_mem c h)
      simp only [List.cons_append, splitOnChar, if_neg hc]
      rw [show cs.append (sep :: r) = cs ++ sep :: r from rfl, ih hcs]

theorem splitOnChar_joinWith (sep : Char) (l : List (List Char))
    (hne : l ≠ []) (hgood : ∀ p ∈ l, sep ∉ p) :
    splitOnChar sep (joinWith sep l) = l := by
  induction l with
  | nil => exact absurd rfl hne
  | cons p ps ih =>
      cases ps with
      | nil =>
          exact splitOnChar_of_not_mem sep p (hgood p (List.mem_cons_self p []))
      | cons q qs =>
          have hp : sep ∉ p := hgood p (List.mem_cons_self p (q :: qs))
          have hrest : ∀ x ∈ q :: qs, sep ∉ x := fun x hx =>
            hgood x (List.mem_cons_of_mem p hx)
          simp only [joinWith, splitOnChar_append sep p _ hp,
            ih (by simp) hrest]

theorem mem_joinWith (sep : Char) (l : List (List Char)) (c : Char)
    (hc : c ∈ joinWith sep l) : c = sep ∨ ∃ p ∈ l, c ∈ p := by
  induction l with
  | nil => simp [joinWith] at hc
  | cons p ps ih =>
      cases ps with
      | nil =>
          right
          exact ⟨p, List.mem_cons_self p [], hc⟩
      | cons q qs =>
          simp only [joinWith, List.mem_append, List.mem_cons] at hc
          rcases hc with h | h | h
          · right
            exact ⟨p, List.mem_cons_self p _, h⟩
          · left
            exact h
          · rcases ih h with h' | ⟨x, hx, hcx⟩
            · left
              exact h'
            · right
              exact ⟨x, List.mem_cons_of_mem p hx, hcx⟩

theorem decodeDigit_digitChar10 : ∀ d, d < 10 →
    decodeDigit (digitChar10 d) = some d := by decide

theorem digitChar10_bounds : ∀ d, d < 10 →
    48 ≤ (digitChar10 d).toNat ∧ (digitChar10 d).toNat ≤ 57 := by decide

theorem natChars_ne_nil (n : Nat) : natChars n ≠ [] := by
  unfold natChars
  by_cases h : n = 0
  · simp [h]
  · simp only [if_neg h]
    intro hmap
    rw [List.map_eq_nil_iff, List.reverse_eq_nil_iff] at hmap
    exact (Nat.digits_ne_nil_iff_ne_zero.mpr h) hmap

theorem natChars_bounds (n : Nat) : ∀ c ∈ natChars n,
    48 ≤ c.toNat ∧ c.toNat ≤ 57 := by
  intro c hc
  unfold natChars at hc
  by_cases h : n = 0
  · rw [if_pos h] at hc
    simp only [List.mem_singleton] at hc
    subst hc
    decide
  · rw [if_neg h] at hc
    rw [List.mem_map] at hc
    obtain ⟨d, hd, hdc⟩ := hc
    rw [List.mem_reverse] at hd
    subst hdc
    exact digitChar10_bounds d (Nat.digits_lt_base (by norm_num) hd)

theorem decodeDigits_map_digitChar10 (l : List Nat) (hl : ∀ d ∈ l, d < 10) :
    decodeDigits (l.map digitChar10) = some l := by
  induction l with
  | nil => rfl
  | cons d ds ih =>
      have hd : d < 10 := hl d (List.mem_cons_self d ds)
      have hds : ∀ x ∈ ds, x < 10 := fun x hx =>
        hl x (List.mem_cons_of_mem d hx)
      simp only [List.map_cons, decodeDigits,
        decodeDigit_digitChar10 d hd, ih hds]

theorem decodeDigits_replicate_zero_append (j : Nat) (cs : List Char) :
    decodeDigits (List.replicate j '0' ++ cs)
      = (decodeDigits cs).map (fun ds => List.replicate j 0 ++ ds) := by
  induction j with
  | zero => simp [Option.map_id']
  | succ j ih =>
      simp only [List.replicate_succ, List.cons_append, decodeDigits]
      rw [show (List.replicate j '0').append cs
        = List.replicate j '0' ++ cs from rfl, ih]
      have h0 : decodeDigit '0' = some 0 := by decide
      rw [h0]
      cases decodeDigits cs <;> simp [List.replicate_succ]

theorem ofDigits_replicate_zero (j : Nat) :
    Nat.ofDigits 10 (List.replicate j 0) = 0 := by
  induction j with
  | zero => simp [Nat.ofDigits]
  | succ j ih => simp [List.replicate_succ, Nat.ofDigits, ih]

theorem decodeDigits_natChars (n : Nat) :
    ∃ ds, decodeDigits (natChars n) = some ds ∧
      Nat.ofDigits 10 ds.reverse = n := by
  by_cases h : n = 0
  · subst h
    exact ⟨[0], by decide, by simp [Nat.ofDigits]⟩
  · refine ⟨(Nat.digits 10 n).reverse, ?_, ?_⟩
    · unfold natChars
      rw [if_neg h]
      exact decodeDigits_map_digitChar10 _
        (fun d hd => Nat.digits_lt_base (by norm_num)
          (List.mem_reverse.mp hd))
    · rw [List.reverse_reverse]
      exact Nat.ofDigits_digits 10 n

theorem parseNatChars_pad (j n : Nat) :
    parseNatChars (List.replicate j '0' ++ natChars n) = some n := by
  obtain ⟨ds, hds, hofd⟩ := decodeDigits_natChars n
  unfold parseNatChars
  rw [if_neg (by
    intro h
    rcases List.append_eq_nil.mp h with ⟨_, h2⟩
    exact natChars_ne_nil n h2)]
  rw [decodeDigits_replicate_zero_append, hds]
  simp only [Option.map_some', Option.some.injEq]
  rw [List.reverse_append, Nat.ofDigits_append, hofd,
    List.reverse_replicate, ofDigits_replicate_zero]
  simp

theorem parseNatChars_natChars (n : Nat) :
    parseNatChars (natChars n) = some n := by
  have := parseNatChars_pad 0 n
  simpa using this

theorem digits_length_le (m k : Nat) (h : m < 10 ^ k) :
    (Nat.digits 10 m).length ≤ k := by
  by_contra hlt
  push_neg at hlt
  by_cases hm : m = 0
  · subst hm
    simp at hlt
  · have h1 : 10 ^ (Nat.digits 10 m).length ≤ 10 * m :=
      Nat.base_pow_length_digits_le 10 m (by norm_num) hm
    have h2 : 10 ^ (k + 1) ≤ 10 ^ (Nat.digits 10 m).length :=
      Nat.pow_le_pow_right (by norm_num) hlt
    rw [pow_succ] at h2
    have h3 : 10 ^ k * 10 ≤ 10 * m := le_trans h2 h1
    rw [mul_comm (10 ^ k) 10] at h3
    have h4 : 10 ^ k ≤ m := Nat.le_of_mul_le_mul_left h3 (by norm_num)
    omega

theorem natChars_length_le (m k : Nat) (hk : 1 ≤ k) (h : m < 10 ^ k) :
    (natChars m).length ≤ k := by
  unfold natChars
  by_cases hm : m = 0
  · simp [hm, hk]
  · rw [if_neg hm]
    simpa using digits_length_le m k h

theorem not_mem_of_bounds (cs : List Char)
    (h : ∀ c ∈ cs, 48 ≤ c.toNat ∧ c.toNat ≤ 57) (x : Char)
    (hx : x.toNat < 48 ∨ 57 < x.toNat) : x ∉ cs := by
  intro hmem
  rcases h x hmem with ⟨h1, h2⟩
  omega

theorem dot_not_mem_natChars (n : Nat) : '.' ∉ natChars n :=
  not_mem_of_bounds _ (natChars_bounds n) '.' (by decide)

theorem dot_not_mem_frac (j n : Nat) :
    '.' ∉ List.replicate j '0' ++ natChars n := by
  intro hmem
  rcases List.mem_append.mp hmem with h | h
  · have := List.eq_of_mem_replicate h
    exact absurd this (by decide)
  · exact dot_not_mem_natChars n h

theorem parseUnsigned_renderUnsignedScaled (m k : Nat) :
    parseUnsigned (renderUnsignedScaled m k)
      = some ((m : ℚ) / (10 : ℚ) ^ k) := by
  by_cases hk : k = 0
  · subst hk
    unfold renderUnsignedScaled parseUnsigned
    rw [if_pos rfl,
      splitOnChar_of_not_mem '.' (natChars m) (dot_not_mem_natChars m)]
    show (parseNatChars (natChars m)).map (fun n => (n : ℚ)) = _
    rw [parseNatChars_natChars]
    simp
  · unfold renderUnsignedScaled parseUnsigned
    rw [if_neg hk,
      splitOnChar_append '.' _ _ (dot_not_mem_natChars (m / 10 ^ k)),
      splitOnChar_of_not_mem '.' _
        (dot_not_mem_frac (k - (natChars (m % 10 ^ k)).length) (m % 10 ^ k))]
    simp only [parsePieces]
    rw [parseNatChars_natChars, parseNatChars_pad]
    have hlen : (List.replicate (k - (natChars (m % 10 ^ k)).length) '0'
        ++ natChars (m % 10 ^ k)).length = k := by
      rw [List.length_append, List.length_replicate]
      have hle : (natChars (m % 10 ^ k)).length ≤ k :=
        natChars_length_le _ k (Nat.one_le_iff_ne_zero.mpr hk)
          (Nat.mod_lt _ (by positivity))
      omega
    rw [hlen]
    have key : (10 : ℚ) ^ k * ((m / 10 ^ k : ℕ) : ℚ)
        + ((m % 10 ^ k : ℕ) : ℚ) = (m : ℚ) := by
      exact_mod_cast congrArg (fun x : ℕ => (x : ℚ)) (Nat.div_add_mod m (10 ^ k))
    have h10 : ((10 : ℚ) ^ k) ≠ 0 := by positivity
    rw [Option.some.injEq, eq_div_iff h10, add_mul, div_mul_cancel₀ _ h10]
    linarith [key]

theorem decExp_dvd (d k : Nat) (h : decExp d = some k) : d ∣ 10 ^ k := by
  have := List.find?_some h
  rw [decide_eq_true_eq] at this
  exact Nat.dvd_of_mod_eq_zero this

theorem renderUnsignedScaled_head (m k : Nat) :
    ∃ c rest, renderUnsignedScaled m k = c :: rest ∧
      48 ≤ c.toNat ∧ c.toNat ≤ 57 := by
  unfold renderUnsignedScaled
  by_cases hk : k = 0
  · rw [if_pos hk]
    obtain ⟨c, rest, hcr⟩ := List.exists_cons_of_ne_nil (natChars_ne_nil m)
    exact ⟨c, rest, hcr,
      natChars_bounds m c (hcr ▸ List.mem_cons_self c rest)⟩
  · rw [if_neg hk]
    obtain ⟨c, rest, hcr⟩ :=
      List.exists_cons_of_ne_nil (natChars_ne_nil (m / 10 ^ k))
    refine ⟨c, rest ++ '.' ::
      (List.replicate (k - (natChars (m % 10 ^ k)).length) '0'
        ++ natChars (m % 10 ^ k)), ?_,
      natChars_bounds _ c (hcr ▸ List.mem_cons_self c rest)⟩
    rw [hcr]
    simp

theorem natAbs_div_den (q : ℚ) (k : Nat) (hdvd : q.den ∣ 10 ^ k) :
    ((q.num.natAbs * (10 ^ k / q.den) : ℕ) : ℚ) / (10 : ℚ) ^ k
      = (q.num.natAbs : ℚ) / (q.den : ℚ) := by
  have hde : q.den * (10 ^ k / q.den) = 10 ^ k := Nat.mul_div_cancel' hdvd
  have he0 : (10 ^ k / q.den) ≠ 0 := by
    intro h0
    rw [h0, Nat.mul_zero] at hde
    exact absurd hde.symm (by positivity)
  have he0q : ((10 ^ k / q.den : ℕ) : ℚ) ≠ 0 := Nat.cast_ne_zero.mpr he0
  have h1 : ((10 : ℚ)) ^ k = ((q.den : ℚ)) * ((10 ^ k / q.den : ℕ) : ℚ) := by
    exact_mod_cast congrArg (fun x : ℕ => (x : ℚ)) hde.symm
  rw [h1]
  push_cast
  rw [mul_div_mul_right _ _ he0q]

theorem parseNum_renderNum (q : ℚ) (h : (decExp q.den).isSome = true) :
    parseNum (renderNum q) = some q := by
  obtain ⟨k, hk⟩ := Option.isSome_iff_exists.mp h
  have hdvd : q.den ∣ 10 ^ k := decExp_dvd _ _ hk
  simp only [renderNum, hk]
  by_cases hq : q < 0
  · rw [if_pos hq]
    simp only [parseNum]
    rw [if_pos trivial, parseUnsigned_renderUnsignedScaled,
      Option.map_some', Option.some.injEq, natAbs_div_den q k hdvd]
    have hnum : q.num ≤ 0 := le_of_lt (Rat.num_neg.mpr hq)
    have habs : ((q.num.natAbs : ℕ) : ℚ) = -((q.num : ℚ)) := by
      rw [Int.cast_natAbs]
      exact_mod_cast abs_of_nonpos hnum
    rw [habs, neg_div, neg_neg, Rat.num_div_den]
  · rw [if_neg hq]
    obtain ⟨c, rest, hcr, hb1, hb2⟩ :=
      renderUnsignedScaled_head (q.num.natAbs * (10 ^ k / q.den)) k
    rw [hcr]
    simp only [parseNum]
    have hcne : ¬ c = '-' := by
      intro hc
      subst hc
      revert hb1
      decide
    rw [if_neg hcne, ← hcr, parseUnsigned_renderUnsignedScaled,
      Option.some.injEq, natAbs_div_den q k hdvd]
    have hnum : 0 ≤ q.num := Rat.num_nonneg.mpr (not_lt.mp hq)
    have habs : ((q.num.natAbs : ℕ) : ℚ) = ((q.num : ℚ)) := by
      rw [Int.cast_natAbs]
      exact_mod_cast abs_of_nonneg hnum
    rw [habs, Rat.num_div_den]

theorem renderNum_ne_nil (q : ℚ) : renderNum q ≠ [] := by
  unfold renderNum
  cases hd : decExp q.den with
  | none =>
      intro hnil
      rcases List.append_eq_nil.mp hnil with ⟨h1, _⟩
      exact natChars_ne_nil _ h1
  | some k =>
      by_cases hq : q < 0
      · simp [hq]
      · simp only [if_neg hq]
        obtain ⟨c, rest, hcr, _, _⟩ := renderUnsignedScaled_head _ k
        rw [hcr]
        simp

theorem renderUnsignedScaled_bounds (m k : Nat) :
    ∀ c ∈ renderUnsignedScaled m k, 45 ≤ c.toNat ∧ c.toNat ≤ 57 := by
  intro c hc
  unfold renderUnsignedScaled at hc
  by_cases hk : k = 0
  · rw [if_pos hk] at hc
    have := natChars_bounds m c hc
    omega
  · rw [if_neg hk] at hc
    rcases List.mem_append.mp hc with h | h
    · have := natChars_bounds _ c h
      omega
    · rcases List.mem_cons.mp h with h | h
      · subst h
        decide
      · rcases List.mem_append.mp h with h | h
        · rw [List.eq_of_mem_replicate h]
          decide
        · have := natChars_bounds _ c h
          omega

theorem renderNum_bounds (q : ℚ) (h : (decExp q.den).isSome = true) :
    ∀ c ∈ renderNum q, 45 ≤ c.toNat ∧ c.toNat ≤ 57 := by
  obtain ⟨k, hk⟩ := Option.isSome_iff_exists.mp h
  intro c hc
  simp only [renderNum, hk] at hc
  by_cases hq : q < 0
  · rw [if_pos hq] at hc
    rcases List.mem_cons.mp hc with h' | h'
    · subst h'
      decide
    · exact renderUnsignedScaled_bounds _ _ c h'
  · rw [if_neg hq] at hc
    exact renderUnsignedScaled_bounds _ _ c hc

theorem typeField_encodeField (v : Value) (h : fieldSafe v) (b : Bool)
    (hb1 : v.isNum = true → b = true) (hb2 : v.isStr = true → b = false) :
    typeField b (encodeField v) = v := by
  cases v with
  | missing => cases b <;> rfl
  | num q =>
      rw [hb1 rfl]
      unfold encodeField typeField
      rw [if_neg (renderNum_ne_nil q), if_pos rfl, parseNum_renderNum q h]
  | str s =>
      have h' : s.data ≠ [] ∧ ',' ∉ s.data ∧ '\n' ∉ s.data ∧
          parseNum s.data = none := h
      rw [hb2 rfl]
      unfold encodeField typeField
      rw [if_neg h'.1, if_neg Bool.false_ne_true]

theorem getD_map_encode (r : List Value) (j : Nat) :
    (r.map encodeField).getD j [] = encodeField (r.getD j Value.missing) := by
  induction r generalizing j with
  | nil => cases j <;> rfl
  | cons v vs ih =>
      cases j with
      | zero => rfl
      | succ j => simpa using ih j

theorem fieldSafe_getD (r : List Value) (j : Nat)
    (hsafe : ∀ v ∈ r, fieldSafe v) : fieldSafe (r.getD j Value.missing) := by
  by_cases hj : j < r.length
  · rw [List.getD_eq_getElem r Value.missing hj]
    exact hsafe _ (List.getElem_mem hj)
  · rw [List.getD_eq_default r Value.missing (le_of_not_lt hj)]
    trivial

theorem numericAt_of_noStr (rows : List (List Value)) (j : Nat)
    (hsafe : ∀ r ∈ rows, ∀ v ∈ r, fieldSafe v)
    (hnostr : ∀ r ∈ rows, (r.getD j Value.missing).isStr = false) :
    (rows.map (fun r => r.map encodeField)).all
      (fun fr => fieldIsNumericOrEmpty (fr.getD j [])) = true := by
  rw [List.all_eq_true]
  intro fr hfr
  obtain ⟨r, hr, hEr⟩ := List.mem_map.mp hfr
  subst hEr
  rw [getD_map_encode]
  have hvs : fieldSafe (r.getD j Value.missing) :=
    fieldSafe_getD r j (hsafe r hr)
  have hns := hnostr r hr
  cases hveq : r.getD j Value.missing with
  | missing => rfl
  | num q =>
      rw [hveq] at hvs
      unfold fieldIsNumericOrEmpty encodeField
      rw [parseNum_renderNum q hvs]
      simp
  | str s =>
      rw [hveq] at hns
      simp [Value.isStr] at hns

theorem not_numericAt_of_str (rows : List (List Value)) (j : Nat)
    (r0 : List Value) (hr0 : r0 ∈ rows) (s : String)
    (hs : r0.getD j Value.missing = Value.str s)
    (hsafe : ∀ v ∈ r0, fieldSafe v) :
    (rows.map (fun r => r.map encodeField)).all
      (fun fr => fieldIsNumericOrEmpty (fr.getD j [])) = false := by
  have hssafe : fieldSafe (Value.str s) := by
    rw [← hs]
    exact fieldSafe_getD r0 j hsafe
  have h' : s.data ≠ [] ∧ ',' ∉ s.data ∧ '\n' ∉ s.data ∧
      parseNum s.data = none := hssafe
  rw [List.all_eq_false]
  refine ⟨r0.map encodeField, List.mem_map_of_mem _ hr0, ?_⟩
  rw [getD_map_encode, hs]
  show ¬ fieldIsNumericOrEmpty s.data = true
  unfold fieldIsNumericOrEmpty
  rw [h'.2.2.2]
  obtain ⟨c, cs, hcons⟩ := List.exists_cons_of_ne_nil h'.1
  rw [hcons]
  simp

theorem typeRow_encode (numericAt : Nat → Bool) :
    ∀ (r : List Value) (j0 : Nat),
      (∀ v ∈ r, fieldSafe v) →
      (∀ i, i < r.length → (r.getD i Value.missing).isNum = true →
        numericAt (j0 + i) = true) →
      (∀ i, i < r.length → (r.getD i Value.missing).isStr = true →
        numericAt (j0 + i) = false) →
      typeRow numericAt j0 (r.map encodeField) = r
  | [], _, _, _, _ => rfl
  | v :: vs, j0, hsafe, hnum, hstr => by
      simp only [List.map_cons, typeRow]
      have hhead : typeField (numericAt j0) (encodeField v) = v := by
        apply typeField_encodeField v (hsafe v (List.mem_cons_self v vs))
        · intro hv
          have h0 := hnum 0 (by simp) (by rw [List.getD_cons_zero]; exact hv)
          simpa using h0
        · intro hv
          have h0 := hstr 0 (by simp) (by rw [List.getD_cons_zero]; exact hv)
          simpa using h0
      have htail : typeRow numericAt (j0 + 1) (vs.map encodeField) = vs := by
        apply typeRow_encode numericAt vs (j0 + 1)
          (fun w hw => hsafe w (List.mem_cons_of_mem v hw))
        · intro i hi hni
          have hlt : i + 1 < (v :: vs).length := by
            simpa using Nat.succ_lt_succ hi
          have h2 := hnum (i + 1) hlt
            (by rw [List.getD_cons_succ]; exact hni)
          have hidx : j0 + (i + 1) = j0 + 1 + i := by omega
          rw [hidx] at h2
          exact h2
        · intro i hi hsi
          have hlt : i + 1 < (v :: vs).length := by
            simpa using Nat.succ_lt_succ hi
          have h2 := hstr (i + 1) hlt
            (by rw [List.getD_cons_succ]; exact hsi)
          have hidx : j0 + (i + 1) = j0 + 1 + i := by omega
          rw [hidx] at h2
          exact h2
      rw [hhead, htail]

theorem encodeField_good (v : Value) (h : fieldSafe v) :
    ',' ∉ encodeField v ∧ '\n' ∉ encodeField v := by
  cases v with
  | missing => simp [encodeField]
  | num q =>
      constructor <;> intro hmem <;>
        exact absurd (renderNum_bounds q h _ hmem) (by decide)
  | str s =>
      have h' : s.data ≠ [] ∧ ',' ∉ s.data ∧ '\n' ∉ s.data ∧
          parseNum s.data = none := h
      exact ⟨h'.2.1, h'.2.2.1⟩

/-- C9: one save/load cycle reproduces a CSV-safe table exactly: same
columns in the same order, same rows in the same order, no injected
synthetic row-index column, and the per-column typing of the loader
(numeric only where the whole column is numeric-looking) restores every
cell. -/
theorem load_save_round_trip (t : Table) (h : t.csvSafe) :
    load_raw_dataset (save_processed_dataset t) = t := by
  obtain ⟨cols, rows⟩ := t
  obtain ⟨hcols, hcolsgood, hrows, hhom⟩ := h
  have hsafeAll : ∀ r ∈ rows, ∀ v ∈ r, fieldSafe v :=
    fun r hr => (hrows r hr).2
  have hrne : ∀ r ∈ rows, r ≠ [] := by
    intro r hr h0
    have hlen := (hrows r hr).1
    rw [h0] at hlen
    exact hcols (List.length_eq_zero.mp hlen.symm)
  unfold load_raw_dataset save_processed_dataset
  have hlines : splitOnChar '\n' (String.mk (joinWith '\n'
      (joinWith ',' (cols.map String.data) ::
        rows.map (fun r => joinWith ',' (r.map encodeField))))).data
      = joinWith ',' (cols.map String.data) ::
        rows.map (fun r => joinWith ',' (r.map encodeField)) := by
    apply splitOnChar_joinWith
    · simp
    · intro p hp hmem
      rcases List.mem_cons.mp hp with hp | hp
      · subst hp
        rcases mem_joinWith ',' _ _ hmem with h' | ⟨x, hx, hcx⟩
        · exact absurd h' (by decide)
        · obtain ⟨s, hs, hsx⟩ := List.mem_map.mp hx
          subst hsx
          exact (hcolsgood s hs).2 hcx
      · obtain ⟨r, hr, hrp⟩ := List.mem_map.mp hp
        subst hrp
        rcases mem_joinWith ',' _ _ hmem with h' | ⟨x, hx, hcx⟩
        · exact absurd h' (by decide)
        · obtain ⟨v, hv, hvx⟩ := List.mem_map.mp hx
          subst hvx
          exact (encodeField_good v (hsafeAll r hr v hv)).2 hcx
  rw [hlines]
  simp only [List.headI_cons, List.tail_cons]
  have hraw : (rows.map (fun r => joinWith ',' (r.map encodeField))).map
      (fun line => splitOnChar ',' line)
      = rows.map (fun r => r.map encodeField) := by
    rw [List.map_map]
    apply List.map_congr_left
    intro r hr
    show splitOnChar ',' (joinWith ',' (r.map encodeField))
      = r.map encodeField
    apply splitOnChar_joinWith ',' _ (by simpa using hrne r hr)
    intro p hp hmem
    obtain ⟨v, hv, hvp⟩ := List.mem_map.mp hp
    subst hvp
    exact (encodeField_good v (hsafeAll r hr v hv)).1 hmem
  rw [hraw, Table.mk.injEq]
  constructor
  · rw [splitOnChar_joinWith ',' _ (by simpa using hcols)]
    · rw [List.map_map]
      have hmk : List.map (String.mk ∘ String.data) cols = List.map id cols :=
        List.map_congr_left (fun s _ => rfl)
      rw [hmk, List.map_id]
    · intro p hp hmem
      obtain ⟨s, hs, hsp⟩ := List.mem_map.mp hp
      subst hsp
      exact (hcolsgood s hs).1 hmem
  · rw [List.map_map]
    have hrows' : List.map ((typeRow (fun j =>
        (rows.map (fun r => r.map encodeField)).all
          (fun fr => fieldIsNumericOrEmpty (fr.getD j []))) 0) ∘
        (fun r => r.map encodeField)) rows = List.map id rows := by
      apply List.map_congr_left
      intro r hr
      show typeRow _ 0 (r.map encodeField) = r
      apply typeRow_encode _ r 0 (hsafeAll r hr)
      · intro i hi hni
        have hic : i < cols.length := by
          rw [← (hrows r hr).1]
          exact hi
        rcases hhom i hic with hcase | hcase
        · simpa using numericAt_of_noStr rows i hsafeAll hcase
        · rw [hcase r hr] at hni
          simp at hni
      · intro i hi hsi
        cases hveq : r.getD i Value.missing with
        | str s =>
            simpa using
              not_numericAt_of_str rows i r hr s hveq (hsafeAll r hr)
        | num q =>
            rw [hveq] at hsi
            simp [Value.isStr] at hsi
        | missing =>
            rw [hveq] at hsi
            simp [Value.isStr] at hsi
    rw [hrows', List.map_id]

/-- Witness for C9: a concrete safe table with numeric, missing and
string cells survives the cycle. -/
theorem load_save_round_trip_witness :
    load_raw_dataset (save_processed_dataset (Table.mk
      ["Age", "Arrival Delay in Minutes", "satisfaction"]
      [[Value.num 30, Value.num 5, Value.str "satisfied"],
       [Value.num 40, Value.missing, Value.str "neutral"]]))
      = Table.mk ["Age", "Arrival Delay in Minutes", "satisfaction"]
          [[Value.num 30, Value.num 5, Value.str "satisfied"],
           [Value.num 40, Value.missing, Value.str "neutral"]] :=
  load_save_round_trip _ (by decide)

/-- Witness for C7: concrete instances — the column list is preserved and
the untouched column `a` reads exactly as before. -/
theorem impute_touches_only_missing_cells_witness :
    "b" ∈ (Table.mk ["a", "b"] [[Value.str "x", Value.missing],
      [Value.str "y", Value.num 6]]).cols ∧
    (impute_mean_inplace (Table.mk ["a", "b"] [[Value.str "x", Value.missing],
      [Value.str "y", Value.num 6]]) "b").1.cols
      = (Table.mk ["a", "b"] [[Value.str "x", Value.missing],
          [Value.str "y", Value.num 6]]).cols ∧
    getColumn (impute_mean_inplace (Table.mk ["a", "b"]
      [[Value.str "x", Value.missing], [Value.str "y", Value.num 6]]) "b").1 "a"
      = getColumn (Table.mk ["a", "b"] [[Value.str "x", Value.missing],
          [Value.str "y", Value.num 6]]) "a" := by
  refine ⟨by decide, ?_, ?_⟩
  · exact (impute_touches_only_missing_cells _ "b" (by decide) (by decide)).1
  · exact (impute_touches_only_missing_cells _ "b" (by decide)
      (by decide)).2.1 "a" (by decide)

end Cleaning
